import Mathlib

/-!
Shallow embedding of `stress_rules_filter.py` (repository AigizK/bashkir-stress).

Words are modelled as `List Char` (Python strings), caller-supplied indices as
`Int` (Python `int`), and the line-processing pipeline as a pure function from
the list of input lines to the kept lines plus the emitted warnings.
-/

namespace BashkirStress

/-- Model of Python's `str.lower` restricted to single characters, on the
character repertoire this program distinguishes: ASCII letters, the base
Cyrillic range `А`–`Я` and `Ё`, and the extra Bashkir Cyrillic capitals.
Python's `lower` is the identity on every other character that can reach the
comparisons in this program (all constants in the source are lowercase
Cyrillic), and it is length-preserving on this repertoire. -/
def pyLower (c : Char) : Char :=
  if 'A' ≤ c ∧ c ≤ 'Z' then Char.ofNat (c.toNat + 32)
  else if 'А' ≤ c ∧ c ≤ 'Я' then Char.ofNat (c.toNat + 32)
  else if c = 'Ё' then 'ё'
  else if ['Ғ', 'Ҙ', 'Ҡ', 'Ң', 'Ҫ', 'Ү', 'Һ', 'Ә', 'Ө'].contains c then
    Char.ofNat (c.toNat + 1)
  else c

/-- `get_bashkir_vowels` (line 12): the characters of the string
`'аәоөүуыиэеяю'` (the Python `set` of a string of pairwise distinct
characters; membership is what matters). -/
def bashkirVowels : List Char := "аәоөүуыиэеяю".data

/-- `special_vowels = set('үу')` (lines 27, 54). -/
def specialVowels : List Char := "үу".data

/-- `regular_vowels = vowels - special_vowels` (lines 28, 55). -/
def regularVowels : List Char :=
  bashkirVowels.filter (fun c => !(specialVowels.contains c))

/-- `is_vowel_in_context(word, index)` (lines 17–44), translated clause by
clause.  `word.getD i 'a'` models `word[i]`; every access is guarded exactly
as in the source, so the default is never read. -/
def is_vowel_in_context (word : List Char) (index : Int) : Bool :=
  if index < 0 ∨ (word.length : Int) ≤ index then false
  else if regularVowels.contains (pyLower (word.getD index.toNat 'a')) then true
  else if specialVowels.contains (pyLower (word.getD index.toNat 'a')) then
    if 0 < index.toNat ∧
        regularVowels.contains (pyLower (word.getD (index.toNat - 1) 'a')) then false
    else if index.toNat < word.length - 1 ∧
        regularVowels.contains (pyLower (word.getD (index.toNat + 1) 'a')) then false
    else true
  else false

/-- Loop body of `find_last_vowel_index` (lines 58–79): one step of the
`for i, char in enumerate(word)` loop updating `last_index`.  The two
sequential neighbor `if`s of the source that set `has_adjacent_vowel` are the
disjunction below. -/
def lastVowelStep (word : List Char) (last_index : Int) (i : Nat) : Int :=
  if regularVowels.contains (pyLower (word.getD i 'a')) then (i : Int)
  else if specialVowels.contains (pyLower (word.getD i 'a')) then
    if (0 < i ∧ regularVowels.contains (pyLower (word.getD (i - 1) 'a'))) ∨
        (i < word.length - 1 ∧ regularVowels.contains (pyLower (word.getD (i + 1) 'a'))) then
      last_index
    else (i : Int)
  else last_index

/-- `find_last_vowel_index(word)` (lines 47–81): fold the loop body over all
positions, starting from `last_index = -1`. -/
def find_last_vowel_index (word : List Char) : Int :=
  (List.range word.length).foldl (lastVowelStep word) (-1)

/-- `simple_endings` (line 92). -/
def simple_endings : List (List Char) :=
  ["мо", "ме", "мө", "мы"].map String.data

/-- `complex_endings` (lines 97–98), in declaration order. -/
def complex_endings : List (List Char) :=
  ["боҙ", "беҙ", "быҙ", "бөҙ", "мен", "мөн", "мон", "мын",
   "һең", "һөң", "һоң", "һың", "һегеҙ", "һөгөҙ", "һоғоҙ", "һығыҙ",
   "са", "сә"].map String.data

/-- `question_words` (line 110). -/
def question_words : List (List Char) :=
  ["кем", "ниндәй", "нисек", "ҡайҙа", "ниңә", "нисә", "ҡасан", "ҡайһы",
   "ҡайҙан", "нишләп", "нимә"].map String.data

/-- The `for ending in complex_endings` loop of rule 1b (lines 99–108):
on a suffix match, if the preceding position exists and holds a vowel the
loop `continue`s with the remaining endings, otherwise it returns `True`. -/
def complexRuleGo (word word_lower : List Char) : List (List Char) → Bool
  | [] => false
  | e :: rest =>
    if e.isSuffixOf word_lower then
      if 0 ≤ (word.length : Int) - e.length - 1 then
        if is_vowel_in_context word ((word.length : Int) - e.length - 1) then
          complexRuleGo word word_lower rest
        else true
      else true
    else complexRuleGo word word_lower rest

/-- Rule 1b of `should_exclude_word` as a predicate on the word. -/
def ruleComplex (word : List Char) : Bool :=
  complexRuleGo word (word.map pyLower) complex_endings

/-- Rule 3 of `should_exclude_word` (lines 117–119): the last-vowel index is
not `-1` and equals the caller-supplied index. -/
def lastVowelRule (word : List Char) (index : Int) : Bool :=
  if find_last_vowel_index word ≠ -1 ∧ find_last_vowel_index word = index then true
  else false

/-- `should_exclude_word(word, index)` (lines 84–121): rule 1a (simple
endings), rule 1b (guarded endings), rule 2 (question-word stems), rule 3
(last-vowel match), default `False`. -/
def should_exclude_word (word : List Char) (index : Int) : Bool :=
  if simple_endings.any (fun e => e.isSuffixOf (word.map pyLower)) then true
  else if ruleComplex word then true
  else if question_words.any (fun q => q.isPrefixOf (word.map pyLower)) then true
  else if lastVowelRule word index then true
  else false

/-- Model of Python's whitespace test used by `str.strip` / `str.split`. -/
def pyIsSpace (c : Char) : Bool :=
  c = ' ' ∨ c = '\t' ∨ c = '\n' ∨ c = '\r' ∨ c = '\x0b' ∨ c = '\x0c'

/-- Model of Python's `str.strip()`: drop whitespace from both ends. -/
def strip (s : List Char) : List Char :=
  ((s.dropWhile pyIsSpace).reverse.dropWhile pyIsSpace).reverse

/-- Accumulator-based model of Python's `str.split()` (split on whitespace
runs, discarding empty tokens). -/
def splitWsAux : List Char → List Char → List (List Char)
  | [], acc => if acc = [] then [] else [acc.reverse]
  | c :: rest, acc =>
    if pyIsSpace c then
      if acc = [] then splitWsAux rest [] else acc.reverse :: splitWsAux rest []
    else splitWsAux rest (c :: acc)

/-- Model of Python's `str.split()` with no separator argument. -/
def pySplit (s : List Char) : List (List Char) := splitWsAux s []

/-- Digit tail of a Python integer literal: after the first digit, digits may
be separated by single underscores (the underscore must be followed by a
digit).  Accumulates the value in base 10. -/
def pyDigitsAux : List Char → Nat → Option Nat
  | [], acc => some acc
  | c :: rest, acc =>
    if c.isDigit then pyDigitsAux rest (acc * 10 + (c.toNat - 48))
    else if c = '_' then
      match rest with
      | d :: _ => if d.isDigit then pyDigitsAux rest acc else none
      | [] => none
    else none

/-- Nonempty digit run starting a Python integer literal body. -/
def pyDigitsStart : List Char → Option Nat
  | [] => none
  | c :: rest => if c.isDigit then pyDigitsAux rest (c.toNat - 48) else none

/-- Model of Python's `int(token)` for whitespace-free tokens: optional sign
followed by ASCII digits with optional single underscores between digits.
(Python additionally accepts some non-ASCII decimal digits; no constant of
this program and no claim depends on those.) -/
def pyParseInt (s : List Char) : Option Int :=
  match s with
  | '+' :: rest => (pyDigitsStart rest).map (fun n => (n : Int))
  | '-' :: rest => (pyDigitsStart rest).map (fun n => -(n : Int))
  | _ => (pyDigitsStart s).map (fun n => (n : Int))

/-- The two warning messages of `filter_words` (lines 139 and 146), carrying
the (stripped) line they name. -/
inductive FilterWarning where
  | badFormat : List Char → FilterWarning
  | badIndex : List Char → FilterWarning

/-- The line a warning names. -/
def FilterWarning.lineOf : FilterWarning → List Char
  | badFormat l => l
  | badIndex l => l

/-- Result of the reading loop of `filter_words`: the kept lines (in input
order) and the warnings printed (in input order). -/
structure FilterResult where
  kept : List (List Char)
  warnings : List FilterWarning

/-- The reading loop of `filter_words` (lines 131–151): strip each line, skip
blank lines silently, warn and skip lines without exactly two tokens, warn
and skip lines whose second token is not an integer, and otherwise keep the
stripped line exactly when `should_exclude_word` is false. -/
def processLines : List (List Char) → FilterResult
  | [] => { kept := [], warnings := [] }
  | line :: rest =>
    if strip line = [] then processLines rest
    else
      match pySplit (strip line) with
      | [w, t] =>
        match pyParseInt t with
        | some idx =>
          if should_exclude_word w idx then processLines rest
          else { kept := strip line :: (processLines rest).kept,
                 warnings := (processLines rest).warnings }
        | none =>
          { kept := (processLines rest).kept,
            warnings := FilterWarning.badIndex (strip line) :: (processLines rest).warnings }
      | _ =>
        { kept := (processLines rest).kept,
          warnings := FilterWarning.badFormat (strip line) :: (processLines rest).warnings }

/-- Per-line summary of the loop body of `filter_words`: the stripped line if
the line is non-blank, well-formed and not excluded, `none` otherwise. -/
def keptLine (line : List Char) : Option (List Char) :=
  if strip line = [] then none
  else
    match pySplit (strip line) with
    | [w, t] =>
      match pyParseInt t with
      | some idx => if should_exclude_word w idx then none else some (strip line)
      | none => none
    | _ => none

/-- Output file content of `filter_words` (lines 154–156): every kept line
followed by a single newline. -/
def outputOf (lines : List (List Char)) : List Char :=
  ((processLines lines).kept.map (fun l => l ++ ['\n'])).flatten

end BashkirStress

namespace BashkirStress

/-- `List.contains` agrees with membership for characters. -/
lemma contains_iff_mem (l : List Char) (c : Char) : l.contains c = true ↔ c ∈ l :=
  List.elem_iff

/-- Out-of-range positions are not vowels. -/
lemma ivc_oob (w : List Char) (p : Int) (h : p < 0 ∨ (w.length : Int) ≤ p) :
    is_vowel_in_context w p = false := by
  unfold is_vowel_in_context
  rw [if_pos h]

/-- Positions holding a vowel are in range. -/
lemma ivc_in_range (w : List Char) (p : Int) (h : is_vowel_in_context w p = true) :
    0 ≤ p ∧ p < (w.length : Int) := by
  by_cases hc : p < 0 ∨ (w.length : Int) ≤ p
  · rw [ivc_oob w p hc] at h
    cases h
  · push_neg at hc
    exact hc

/-- One loop step of `find_last_vowel_index` updates the accumulator to `i`
exactly when `is_vowel_in_context` holds at `i`: the two neighbor checks of
the loop body are literally those of `is_vowel_in_context`. -/
lemma step_eq (w : List Char) (acc : Int) (i : Nat) (h : i < w.length) :
    lastVowelStep w acc i =
      if is_vowel_in_context w (i : Int) = true then (i : Int) else acc := by
  have h0 : ¬((i : Int) < 0 ∨ (w.length : Int) ≤ (i : Int)) := by
    push_neg
    constructor
    · exact Int.natCast_nonneg i
    · exact_mod_cast h
  unfold lastVowelStep
  by_cases hr : regularVowels.contains (pyLower (w.getD i 'a')) = true
  · have hv : is_vowel_in_context w (i : Int) = true := by
      unfold is_vowel_in_context
      rw [if_neg h0, Int.toNat_natCast, if_pos hr]
    rw [if_pos hr]
    simp [hv]
  · by_cases hs : specialVowels.contains (pyLower (w.getD i 'a')) = true
    · by_cases h1 : 0 < i ∧ regularVowels.contains (pyLower (w.getD (i - 1) 'a')) = true
      · have hv : is_vowel_in_context w (i : Int) = false := by
          unfold is_vowel_in_context
          rw [if_neg h0, Int.toNat_natCast, if_neg hr, if_pos hs, if_pos h1]
        rw [if_neg hr, if_pos hs, if_pos (Or.inl h1)]
        simp [hv]
      · by_cases h2 : i < w.length - 1 ∧
            regularVowels.contains (pyLower (w.getD (i + 1) 'a')) = true
        · have hv : is_vowel_in_context w (i : Int) = false := by
            unfold is_vowel_in_context
            rw [if_neg h0, Int.toNat_natCast, if_neg hr, if_pos hs, if_neg h1, if_pos h2]
          rw [if_neg hr, if_pos hs, if_pos (Or.inr h2)]
          simp [hv]
        · have hv : is_vowel_in_context w (i : Int) = true := by
            unfold is_vowel_in_context
            rw [if_neg h0, Int.toNat_natCast, if_neg hr, if_pos hs, if_neg h1, if_neg h2]
          rw [if_neg hr, if_pos hs, if_neg (fun hor => hor.elim h1 h2)]
          simp [hv]
    · have hv : is_vowel_in_context w (i : Int) = false := by
        unfold is_vowel_in_context
        rw [if_neg h0, Int.toNat_natCast, if_neg hr, if_neg hs]
      rw [if_neg hr, if_neg hs]
      simp [hv]

/-- Characterization of the loop of `find_last_vowel_index` after the first
`n` positions: either no position so far is a vowel and the accumulator is
still `-1`, or the accumulator is the greatest vowel position below `n`. -/
lemma lvi_aux (w : List Char) :
    ∀ n, n ≤ w.length →
      (((List.range n).foldl (lastVowelStep w) (-1) = -1 ∧
          ∀ i : Nat, i < n → is_vowel_in_context w (i : Int) = false) ∨
        ∃ k : Nat, k < n ∧ (List.range n).foldl (lastVowelStep w) (-1) = (k : Int) ∧
          is_vowel_in_context w (k : Int) = true ∧
          ∀ j : Nat, k < j → j < n → is_vowel_in_context w (j : Int) = false) := by
  intro n
  induction n with
  | zero =>
    intro _
    left
    exact ⟨rfl, fun i hi => absurd hi (Nat.not_lt_zero i)⟩
  | succ n ih =>
    intro hle
    have hn : n ≤ w.length := Nat.le_of_succ_le hle
    have hlt : n < w.length := Nat.lt_of_succ_le hle
    have hfold : (List.range (n + 1)).foldl (lastVowelStep w) (-1)
        = lastVowelStep w ((List.range n).foldl (lastVowelStep w) (-1)) n := by
      rw [List.range_succ, List.foldl_append]
      rfl
    rw [hfold, step_eq w _ n hlt]
    by_cases hv : is_vowel_in_context w (n : Int) = true
    · rw [if_pos hv]
      right
      exact ⟨n, Nat.lt_succ_self n, rfl, hv,
        fun j hj1 hj2 => absurd (Nat.lt_of_lt_of_le hj1 (Nat.le_of_lt_succ hj2)) (by omega)⟩
    · rw [if_neg hv]
      have hvf : is_vowel_in_context w (n : Int) = false := by
        cases hb : is_vowel_in_context w (n : Int)
        · rfl
        · exact absurd hb hv
      rcases ih hn with ⟨he, hall⟩ | ⟨k, hk, he, hkv, haft⟩
      · left
        refine ⟨he, fun i hi => ?_⟩
        rcases Nat.lt_succ_iff_lt_or_eq.mp hi with hi' | hi'
        · exact hall i hi'
        · rw [hi']
          exact hvf
      · right
        refine ⟨k, by omega, he, hkv, fun j hj1 hj2 => ?_⟩
        rcases Nat.lt_succ_iff_lt_or_eq.mp hj2 with hj2' | hj2'
        · exact haft j hj1 hj2'
        · rw [hj2']
          exact hvf

end BashkirStress

namespace BashkirStress

/-- Claim C3: for every word, `find_last_vowel_index` returns the greatest
position at which `is_vowel_in_context` holds, and `-1` when no such position
exists — the direct neighbor-membership scan of the locator agrees with the
classifier at every position of every word. -/
theorem last_vowel_index_spec (w : List Char) :
    (find_last_vowel_index w = -1 ∧ ∀ p : Int, is_vowel_in_context w p = false) ∨
    (is_vowel_in_context w (find_last_vowel_index w) = true ∧
      ∀ p : Int, is_vowel_in_context w p = true → p ≤ find_last_vowel_index w) := by
  rcases lvi_aux w w.length (le_refl _) with ⟨he, hall⟩ | ⟨k, hk, he, hkv, haft⟩
  · left
    refine ⟨he, fun p => ?_⟩
    by_cases hc : p < 0 ∨ (w.length : Int) ≤ p
    · exact ivc_oob w p hc
    · push_neg at hc
      have hp : p = ((p.toNat : Nat) : Int) := (Int.toNat_of_nonneg hc.1).symm
      have hlt : p.toNat < w.length := by omega
      rw [hp]
      exact hall p.toNat hlt
  · right
    have hfe : find_last_vowel_index w = (k : Int) := he
    constructor
    · rw [hfe]
      exact hkv
    · intro p hp
      have hr := ivc_in_range w p hp
      have hpn : p = ((p.toNat : Nat) : Int) := (Int.toNat_of_nonneg hr.1).symm
      rw [hfe]
      by_contra hgt
      push_neg at hgt
      have hkj : k < p.toNat := by omega
      have hjl : p.toNat < w.length := by omega
      have hf := haft p.toNat hkj hjl
      rw [hpn, hf] at hp
      cases hp

/-- Claim C2: `is_vowel_in_context` is false out of range and on characters
outside the vowel alphabet, unconditionally true on a regular vowel, and on a
special vowel (`ү`/`у`) true unless an existing immediate neighbor,
lowercased, is a regular vowel; with no neighbor at all it is true. -/
theorem vowel_in_context_spec (w : List Char) (p : Int) :
    is_vowel_in_context w p = true ↔
      0 ≤ p ∧ p < (w.length : Int) ∧
        (pyLower (w.getD p.toNat 'a') ∈ regularVowels ∨
          (pyLower (w.getD p.toNat 'a') ∈ specialVowels ∧
            (0 < p.toNat → pyLower (w.getD (p.toNat - 1) 'a') ∉ regularVowels) ∧
            (p.toNat + 1 < w.length → pyLower (w.getD (p.toNat + 1) 'a') ∉ regularVowels))) := by
  by_cases hc : p < 0 ∨ (w.length : Int) ≤ p
  · rw [ivc_oob w p hc]
    constructor
    · intro h
      cases h
    · rintro ⟨h1, h2, -⟩
      exfalso
      omega
  · push_neg at hc
    obtain ⟨h0, h1⟩ := hc
    have hi : p.toNat < w.length := by omega
    have hnn : ¬(p < 0 ∨ (w.length : Int) ≤ p) := by omega
    unfold is_vowel_in_context
    rw [if_neg hnn]
    by_cases hr : regularVowels.contains (pyLower (w.getD p.toNat 'a')) = true
    · rw [if_pos hr]
      constructor
      · intro _
        exact ⟨h0, h1, Or.inl ((contains_iff_mem _ _).mp hr)⟩
      · intro _
        rfl
    · rw [if_neg hr]
      have hrm : pyLower (w.getD p.toNat 'a') ∉ regularVowels :=
        fun hm => hr ((contains_iff_mem _ _).mpr hm)
      by_cases hs : specialVowels.contains (pyLower (w.getD p.toNat 'a')) = true
      · rw [if_pos hs]
        by_cases ha : 0 < p.toNat ∧
            regularVowels.contains (pyLower (w.getD (p.toNat - 1) 'a')) = true
        · rw [if_pos ha]
          constructor
          · intro h
            cases h
          · rintro ⟨-, -, hor⟩
            exfalso
            rcases hor with hm | ⟨-, hprev, -⟩
            · exact hrm hm
            · exact hprev ha.1 ((contains_iff_mem _ _).mp ha.2)
        · rw [if_neg ha]
          by_cases hb : p.toNat < w.length - 1 ∧
              regularVowels.contains (pyLower (w.getD (p.toNat + 1) 'a')) = true
          · rw [if_pos hb]
            constructor
            · intro h
              cases h
            · rintro ⟨-, -, hor⟩
              exfalso
              rcases hor with hm | ⟨-, -, hnext⟩
              · exact hrm hm
              · exact hnext (by omega) ((contains_iff_mem _ _).mp hb.2)
          · rw [if_neg hb]
            constructor
            · intro _
              refine ⟨h0, h1, Or.inr ⟨(contains_iff_mem _ _).mp hs, ?_, ?_⟩⟩
              · intro hpos hm
                exact ha ⟨hpos, (contains_iff_mem _ _).mpr hm⟩
              · intro hlt hm
                exact hb ⟨by omega, (contains_iff_mem _ _).mpr hm⟩
            · intro _
              rfl
      · rw [if_neg hs]
        have hsm : pyLower (w.getD p.toNat 'a') ∉ specialVowels :=
          fun hm => hs ((contains_iff_mem _ _).mpr hm)
        constructor
        · intro h
          cases h
        · rintro ⟨-, -, hor⟩
          exfalso
          rcases hor with hm | ⟨hm, -, -⟩
          · exact hrm hm
          · exact hsm hm

end BashkirStress

namespace BashkirStress

/-- The ending loop of rule 1b returns true exactly when some listed ending
matches the lowercased word and the preceding position is missing or holds a
non-vowel. -/
lemma complexRuleGo_iff (word word_lower : List Char) (es : List (List Char)) :
    complexRuleGo word word_lower es = true ↔
      ∃ e ∈ es, e.isSuffixOf word_lower = true ∧
        ((word.length : Int) - e.length - 1 < 0 ∨
          is_vowel_in_context word ((word.length : Int) - e.length - 1) = false) := by
  induction es with
  | nil => simp [complexRuleGo]
  | cons e rest ih =>
    simp only [complexRuleGo]
    by_cases hsuf : e.isSuffixOf word_lower = true
    · rw [if_pos hsuf]
      by_cases hge : 0 ≤ (word.length : Int) - e.length - 1
      · rw [if_pos hge]
        by_cases hv : is_vowel_in_context word ((word.length : Int) - e.length - 1) = true
        · rw [if_pos hv, ih]
          constructor
          · rintro ⟨f, hf, hfs, hfc⟩
            exact ⟨f, List.mem_cons_of_mem e hf, hfs, hfc⟩
          · rintro ⟨f, hf, hfs, hfc⟩
            rcases List.mem_cons.mp hf with hfe | hfr
            · subst hfe
              exfalso
              rcases hfc with hlt | hfalse
              · omega
              · rw [hv] at hfalse
                cases hfalse
            · exact ⟨f, hfr, hfs, hfc⟩
        · have hvf : is_vowel_in_context word ((word.length : Int) - e.length - 1) = false := by
            cases hb : is_vowel_in_context word ((word.length : Int) - e.length - 1)
            · rfl
            · exact absurd hb hv
          rw [if_neg hv]
          constructor
          · intro _
            exact ⟨e, List.mem_cons_self e rest, hsuf, Or.inr hvf⟩
          · intro _
            rfl
      · rw [if_neg hge]
        constructor
        · intro _
          exact ⟨e, List.mem_cons_self e rest, hsuf, Or.inl (by omega)⟩
        · intro _
          rfl
    · rw [if_neg hsuf, ih]
      constructor
      · rintro ⟨f, hf, hfs, hfc⟩
        exact ⟨f, List.mem_cons_of_mem e hf, hfs, hfc⟩
      · rintro ⟨f, hf, hfs, hfc⟩
        rcases List.mem_cons.mp hf with hfe | hfr
        · subst hfe
          exact absurd hfs hsuf
        · exact ⟨f, hfr, hfs, hfc⟩

/-- Claim C1: the guarded-ending rule fires exactly when some suffix of the
fixed list matches the end of the lowercased word and the position preceding
the suffix is negative or holds a non-vowel per `is_vowel_in_context`; a
matching suffix whose preceding character is a vowel does not stop the scan
of the remaining suffixes. -/
theorem guarded_ending_rule_spec (word : List Char) :
    ruleComplex word = true ↔
      ∃ e ∈ complex_endings, e.isSuffixOf (word.map pyLower) = true ∧
        ((word.length : Int) - e.length - 1 < 0 ∨
          is_vowel_in_context word ((word.length : Int) - e.length - 1) = false) :=
  complexRuleGo_iff word (word.map pyLower) complex_endings

/-- Claim C4: the last-vowel-match rule fires iff `find_last_vowel_index` is
not `-1` and equals the caller-supplied index; when it fires the word is
excluded; and a word with no qualifying vowel is never excluded by this rule,
even at index `-1`. -/
theorem last_vowel_rule_spec (w : List Char) (i : Int) :
    (lastVowelRule w i = true ↔
      (find_last_vowel_index w ≠ -1 ∧ find_last_vowel_index w = i)) ∧
    (lastVowelRule w i = true → should_exclude_word w i = true) ∧
    (find_last_vowel_index w = -1 → lastVowelRule w i = false) := by
  refine ⟨?_, ?_, ?_⟩
  · unfold lastVowelRule
    by_cases hc : find_last_vowel_index w ≠ -1 ∧ find_last_vowel_index w = i
    · rw [if_pos hc]
      exact ⟨fun _ => hc, fun _ => rfl⟩
    · rw [if_neg hc]
      exact ⟨fun h => absurd h Bool.false_ne_true, fun h => absurd h hc⟩
  · intro hl
    simp [should_exclude_word, hl]
  · intro hm
    unfold lastVowelRule
    rw [if_neg (fun hc => hc.1 hm)]

/-- Witness for claim C4 at the word `та` with index 1 (its last vowel). -/
theorem last_vowel_rule_spec_witness : should_exclude_word ("та".data) 1 = true :=
  (last_vowel_rule_spec ("та".data) 1).2.1 (by decide)

/-- Claim C8: `should_exclude_word` is a total boolean function of
`(word, index)` and the index influences the result only through equality
with `find_last_vowel_index word`. -/
theorem exclude_index_only_via_last_vowel (w : List Char) (i j : Int)
    (h : find_last_vowel_index w = i ↔ find_last_vowel_index w = j) :
    should_exclude_word w i = should_exclude_word w j := by
  have hl : lastVowelRule w i = lastVowelRule w j := by
    unfold lastVowelRule
    by_cases hi' : find_last_vowel_index w = i
    · have hj' : find_last_vowel_index w = j := h.mp hi'
      have hij : i = j := hi'.symm.trans hj'
      subst hij
      rfl
    · have hj' : ¬find_last_vowel_index w = j := fun hj => hi' (h.mpr hj)
      rw [if_neg (fun hc => hi' hc.2), if_neg (fun hc => hj' hc.2)]
  unfold should_exclude_word
  rw [hl]

/-- Witness for claim C8: on the vowel-free word `т`, indices 0 and 5 give
the same verdict. -/
theorem exclude_index_only_via_last_vowel_witness :
    should_exclude_word ("т".data) 0 = should_exclude_word ("т".data) 5 :=
  exclude_index_only_via_last_vowel ("т".data) 0 5
    ⟨fun h => absurd h (by decide), fun h => absurd h (by decide)⟩

/-- Counterexample to claim C6 as stated: the vowel alphabet does not have
11 characters. -/
theorem vowel_alphabet_not_eleven : bashkirVowels.dedup.length ≠ 11 := by decide

/-- Claim C6 as amended: the vowel alphabet is exactly the 12 characters
`а ә о ө ү у ы и э е я ю`. -/
theorem vowel_alphabet_spec :
    bashkirVowels = ['а', 'ә', 'о', 'ө', 'ү', 'у', 'ы', 'и', 'э', 'е', 'я', 'ю'] ∧
      bashkirVowels.dedup.length = 12 := by
  constructor
  · rfl
  · decide

/-- On a word made solely of `ү`/`у`, every position is a vowel in context:
the neighbor test only consults regular vowels. -/
lemma all_special_ivc (w : List Char) (h : ∀ c ∈ w, c = 'ү' ∨ c = 'у') (i : Nat)
    (hi : i < w.length) : is_vowel_in_context w (i : Int) = true := by
  have hget : ∀ j : Nat, j < w.length → w.getD j 'a' = 'ү' ∨ w.getD j 'a' = 'у' := by
    intro j hj
    have he : w.getD j 'a' = w[j] := List.getD_eq_getElem w 'a' hj
    rw [he]
    exact h _ (List.getElem_mem hj)
  have h0 : ¬((i : Int) < 0 ∨ (w.length : Int) ≤ (i : Int)) := by
    push_neg
    exact ⟨Int.natCast_nonneg i, by exact_mod_cast hi⟩
  unfold is_vowel_in_context
  rw [if_neg h0, Int.toNat_natCast]
  have hchar : pyLower (w.getD i 'a') = 'ү' ∨ pyLower (w.getD i 'a') = 'у' := by
    rcases hget i hi with hc | hc <;> rw [hc] <;> decide
  have hr : ¬(regularVowels.contains (pyLower (w.getD i 'a')) = true) := by
    rcases hchar with hc | hc <;> rw [hc] <;> decide
  have hs : specialVowels.contains (pyLower (w.getD i 'a')) = true := by
    rcases hchar with hc | hc <;> rw [hc] <;> decide
  rw [if_neg hr, if_pos hs]
  have hprev : ¬(0 < i ∧ regularVowels.contains (pyLower (w.getD (i - 1) 'a')) = true) := by
    rintro ⟨hpos, hcon⟩
    have hj : i - 1 < w.length := by omega
    rcases hget (i - 1) hj with hc | hc <;> rw [hc] at hcon <;> exact absurd hcon (by decide)
  have hnext : ¬(i < w.length - 1 ∧
      regularVowels.contains (pyLower (w.getD (i + 1) 'a')) = true) := by
    rintro ⟨hlt, hcon⟩
    have hj : i + 1 < w.length := by omega
    rcases hget (i + 1) hj with hc | hc <;> rw [hc] at hcon <;> exact absurd hcon (by decide)
  rw [if_neg hprev, if_neg hnext]

/-- Claim C10: a neighboring `ү`/`у` never disqualifies a special vowel, so
on a word consisting solely of `ү`/`у` every position is a vowel and the
last-vowel index is the word's last position. -/
theorem special_only_word_spec (w : List Char) (h : ∀ c ∈ w, c = 'ү' ∨ c = 'у') :
    (∀ i : Nat, i < w.length → is_vowel_in_context w (i : Int) = true) ∧
    find_last_vowel_index w = (w.length : Int) - 1 := by
  refine ⟨fun i hi => all_special_ivc w h i hi, ?_⟩
  rcases Nat.eq_zero_or_pos w.length with hz | hpos
  · have hw : w = [] := List.length_eq_zero.mp hz
    subst hw
    decide
  · rcases lvi_aux w w.length (le_refl _) with ⟨-, hall⟩ | ⟨k, hk, he, -, haft⟩
    · have hv := all_special_ivc w h 0 hpos
      rw [hall 0 hpos] at hv
      cases hv
    · have hfe : find_last_vowel_index w = (k : Int) := he
      have hkl : k = w.length - 1 := by
        by_contra hne
        have hlt : k + 1 < w.length := by omega
        have hvk := all_special_ivc w h (k + 1) hlt
        rw [haft (k + 1) (by omega) hlt] at hvk
        cases hvk
      rw [hfe, hkl]
      omega

/-- Witness for claim C10 at the word `үу`. -/
theorem special_only_word_spec_witness :
    is_vowel_in_context ("үу".data) 1 = true ∧ find_last_vowel_index ("үу".data) = 1 := by
  have h := special_only_word_spec ("үу".data) (by decide)
  constructor
  · have h1 := h.1 1 (by decide)
    exact_mod_cast h1
  · have h2 := h.2
    have hl : ("үу".data).length = 2 := by decide
    rw [hl] at h2
    norm_num at h2
    exact h2

end BashkirStress

namespace BashkirStress

/-- The head of `dropWhile p` does not satisfy `p`. -/
lemma head?_dropWhile (p : Char → Bool) (l : List Char) (c : Char)
    (h : (l.dropWhile p).head? = some c) : p c = false := by
  induction l with
  | nil => simp [List.dropWhile] at h
  | cons a t ih =>
    rw [List.dropWhile_cons] at h
    by_cases hp : p a = true
    · rw [if_pos hp] at h
      exact ih h
    · rw [if_neg hp] at h
      rw [List.head?_cons] at h
      injection h with h
      subst h
      simpa using hp

/-- `dropWhile` is idempotent. -/
lemma dropWhile_dropWhile (p : Char → Bool) (l : List Char) :
    (l.dropWhile p).dropWhile p = l.dropWhile p := by
  cases hd : l.dropWhile p with
  | nil => rfl
  | cons a t =>
    have ha : p a = false := head?_dropWhile p l a (by rw [hd]; rfl)
    simp [List.dropWhile_cons, ha]

/-- `dropWhile` keeps the last element (or empties the list). -/
lemma getLast?_dropWhile (p : Char → Bool) (l : List Char) :
    l.dropWhile p = [] ∨ (l.dropWhile p).getLast? = l.getLast? := by
  induction l with
  | nil => exact Or.inl rfl
  | cons a t ih =>
    rw [List.dropWhile_cons]
    by_cases hp : p a = true
    · rw [if_pos hp]
      rcases ih with h | h
      · exact Or.inl h
      · cases t with
        | nil => exact Or.inl rfl
        | cons b t' =>
          right
          rw [h, List.getLast?_cons_cons]
    · rw [if_neg hp]
      exact Or.inr rfl

/-- The first character of a stripped line is not whitespace. -/
lemma strip_head? (s : List Char) (c : Char) (h : (strip s).head? = some c) :
    pyIsSpace c = false := by
  unfold strip at h
  rw [List.head?_reverse] at h
  rcases getLast?_dropWhile pyIsSpace (s.dropWhile pyIsSpace).reverse with he | he
  · rw [he] at h
    simp at h
  · rw [he, List.getLast?_reverse] at h
    exact head?_dropWhile pyIsSpace s c h

/-- The last character of a stripped line is not whitespace. -/
lemma strip_getLast? (s : List Char) (c : Char) (h : (strip s).getLast? = some c) :
    pyIsSpace c = false := by
  unfold strip at h
  rw [List.getLast?_reverse] at h
  exact head?_dropWhile pyIsSpace _ c h

/-- Python's `strip` is idempotent. -/
lemma strip_strip (s : List Char) : strip (strip s) = strip s := by
  have h1 : (strip s).dropWhile pyIsSpace = strip s := by
    cases hd : strip s with
    | nil => rfl
    | cons a t =>
      have ha : pyIsSpace a = false := strip_head? s a (by rw [hd]; rfl)
      simp [List.dropWhile_cons, ha]
  have h2 : (strip s).reverse.dropWhile pyIsSpace = (strip s).reverse := by
    cases hd : (strip s).reverse with
    | nil => rfl
    | cons a t =>
      have hg : (strip s).getLast? = some a := by
        rw [← List.head?_reverse, hd, List.head?_cons]
      have ha : pyIsSpace a = false := strip_getLast? s a hg
      simp [List.dropWhile_cons, ha]
  calc strip (strip s)
      = (((strip s).dropWhile pyIsSpace).reverse.dropWhile pyIsSpace).reverse := rfl
    _ = ((strip s).reverse.dropWhile pyIsSpace).reverse := by rw [h1]
    _ = ((strip s).reverse).reverse := by rw [h2]
    _ = strip s := List.reverse_reverse _

/-- The kept lines of the reading loop are the per-line summaries of the
loop body, in input order. -/
lemma processLines_kept_eq (lines : List (List Char)) :
    (processLines lines).kept = lines.filterMap keptLine := by
  induction lines with
  | nil => rfl
  | cons line rest ih =>
    by_cases hb : strip line = []
    · simp [processLines, keptLine, List.filterMap_cons, hb, ih]
    · cases hsp : pySplit (strip line) with
      | nil => simp [processLines, keptLine, List.filterMap_cons, hb, hsp, ih]
      | cons w ts =>
        cases ts with
        | nil => simp [processLines, keptLine, List.filterMap_cons, hb, hsp, ih]
        | cons t us =>
          cases us with
          | nil =>
            cases hpi : pyParseInt t with
            | none => simp [processLines, keptLine, List.filterMap_cons, hb, hsp, hpi, ih]
            | some idx =>
              by_cases hex : should_exclude_word w idx = true
              · simp [processLines, keptLine, List.filterMap_cons, hb, hsp, hpi, hex, ih]
              · simp [processLines, keptLine, List.filterMap_cons, hb, hsp, hpi, hex, ih]
          | cons u vs =>
            simp [processLines, keptLine, List.filterMap_cons, hb, hsp, ih]

/-- Inversion of `keptLine`: a kept summary is the stripped line, and the
stripped line is non-blank, splits into exactly two tokens, has an integer
second token and is not excluded. -/
lemma keptLine_some (line l : List Char) (h : keptLine line = some l) :
    l = strip line ∧ strip line ≠ [] ∧
      ∃ w t idx, pySplit (strip line) = [w, t] ∧ pyParseInt t = some idx ∧
        should_exclude_word w idx = false := by
  by_cases hb : strip line = []
  · unfold keptLine at h
    rw [if_pos hb] at h
    cases h
  · cases hsp : pySplit (strip line) with
    | nil =>
      unfold keptLine at h
      rw [if_neg hb, hsp] at h
      simp at h
    | cons w ts =>
      cases ts with
      | nil =>
        unfold keptLine at h
        rw [if_neg hb, hsp] at h
        simp at h
      | cons t us =>
        cases us with
        | nil =>
          cases hpi : pyParseInt t with
          | none =>
            unfold keptLine at h
            rw [if_neg hb, hsp] at h
            simp [hpi] at h
          | some idx =>
            by_cases hex : should_exclude_word w idx = true
            · unfold keptLine at h
              rw [if_neg hb, hsp] at h
              simp [hpi, hex] at h
            · have hexf : should_exclude_word w idx = false := by
                cases hbv : should_exclude_word w idx
                · rfl
                · exact absurd hbv hex
              unfold keptLine at h
              rw [if_neg hb, hsp] at h
              simp [hpi, hexf] at h
              exact ⟨h.symm, hb, w, t, idx, rfl, hpi, hexf⟩
        | cons u vs =>
          unfold keptLine at h
          rw [if_neg hb, hsp] at h
          simp at h

end BashkirStress

namespace BashkirStress

/-- A line the loop keeps is a fixed point of the per-line summary: stripping
is idempotent, so re-reading a kept line parses identically and is kept
again. -/
lemma keptLine_self (line l : List Char) (h : keptLine line = some l) :
    keptLine l = some l := by
  obtain ⟨hl, hb, w, t, idx, hsp, hpi, hex⟩ := keptLine_some line l h
  subst hl
  unfold keptLine
  rw [strip_strip line, if_neg hb, hsp]
  simp [hpi, hex]

/-- `filterMap` along a function that fixes every member is the identity. -/
lemma filterMap_self (l : List (List Char)) (h : ∀ x ∈ l, keptLine x = some x) :
    l.filterMap keptLine = l := by
  induction l with
  | nil => rfl
  | cons a t ih =>
    have ha := h a (List.mem_cons_self a t)
    have ht := ih (fun x hx => h x (List.mem_cons_of_mem a hx))
    simp [List.filterMap_cons, ha, ht]

/-- Every kept line is kept again by the per-line summary. -/
lemma kept_mem_keptLine (lines : List (List Char)) :
    ∀ x ∈ (processLines lines).kept, keptLine x = some x := by
  intro x hx
  rw [processLines_kept_eq] at hx
  obtain ⟨line, hline, hsome⟩ := List.mem_filterMap.mp hx
  exact keptLine_self line x hsome

/-- Re-running the loop on lines that are all kept fixed points emits no
warnings. -/
lemma processLines_warnings_nil (ls : List (List Char))
    (h : ∀ x ∈ ls, keptLine x = some x) :
    (processLines ls).warnings = [] := by
  induction ls with
  | nil => rfl
  | cons a t ih =>
    have ha := h a (List.mem_cons_self a t)
    obtain ⟨-, hb, w, tt, idx, hsp, hpi, hex⟩ := keptLine_some a a ha
    have hrest := ih (fun x hx => h x (List.mem_cons_of_mem a hx))
    simp [processLines, hb, hsp, hpi, hex, hrest]

/-- Claim C5: the pipeline is idempotent — running the reading loop on its
own kept output keeps exactly the same lines in the same order (and warns on
none of them). -/
theorem pipeline_idempotent (lines : List (List Char)) :
    (processLines ((processLines lines).kept)).kept = (processLines lines).kept ∧
    (processLines ((processLines lines).kept)).warnings = [] := by
  have hmem : ∀ x ∈ (processLines lines).kept, keptLine x = some x :=
    kept_mem_keptLine lines
  constructor
  · rw [processLines_kept_eq]
    exact filterMap_self _ hmem
  · exact processLines_warnings_nil _ hmem

/-- Counterexample to claim C7 as stated: the well-formed, kept input line
`" а 5"` (with a leading space) is written to the output as its stripped
form `"а 5"`, not verbatim. -/
theorem kept_line_not_verbatim :
    (processLines [" а 5".data]).kept = ["а 5".data] ∧ " а 5".data ≠ "а 5".data := by
  constructor
  · decide
  · decide

/-- Claim C7 as amended: each kept record is reproduced as the stripped form
of its input line (word, index and internal whitespace unchanged — verbatim
whenever the line has no leading or trailing whitespace), in input order,
and the output is exactly the kept lines each followed by a single
newline. -/
theorem kept_lines_eq_stripped (lines : List (List Char)) :
    (processLines lines).kept = lines.filterMap keptLine ∧
    outputOf lines = ((lines.filterMap keptLine).map (fun l => l ++ ['\n'])).flatten := by
  constructor
  · exact processLines_kept_eq lines
  · unfold outputOf
    rw [processLines_kept_eq lines]

/-- Claim C9: a non-blank malformed line — not exactly two tokens, or a
second token that does not parse as an integer — is skipped with a warning
naming the (stripped) line, the following lines are still processed, and the
kept output (hence the kept count) is unchanged. -/
theorem malformed_line_skipped (line : List Char) (rest : List (List Char))
    (hne : strip line ≠ [])
    (hmal : (pySplit (strip line)).length ≠ 2 ∨
      ∃ w t, pySplit (strip line) = [w, t] ∧ pyParseInt t = none) :
    (processLines (line :: rest)).kept = (processLines rest).kept ∧
    ∃ msg, (processLines (line :: rest)).warnings = msg :: (processLines rest).warnings ∧
      msg.lineOf = strip line := by
  cases hsp : pySplit (strip line) with
  | nil =>
    refine ⟨?_, FilterWarning.badFormat (strip line), ?_, rfl⟩
    · simp [processLines, hne, hsp]
    · simp [processLines, hne, hsp]
  | cons w ts =>
    cases ts with
    | nil =>
      refine ⟨?_, FilterWarning.badFormat (strip line), ?_, rfl⟩
      · simp [processLines, hne, hsp]
      · simp [processLines, hne, hsp]
    | cons t us =>
      cases us with
      | nil =>
        have hpi : pyParseInt t = none := by
          rcases hmal with hlen | ⟨w', t', heq, hpn⟩
          · rw [hsp] at hlen
            simp at hlen
          · rw [hsp] at heq
            simp at heq
            rw [heq.2]
            exact hpn
        refine ⟨?_, FilterWarning.badIndex (strip line), ?_, rfl⟩
        · simp [processLines, hne, hsp, hpi]
        · simp [processLines, hne, hsp, hpi]
      | cons u vs =>
        refine ⟨?_, FilterWarning.badFormat (strip line), ?_, rfl⟩
        · simp [processLines, hne, hsp]
        · simp [processLines, hne, hsp]

/-- Witness for claim C9 at the one-token line `тел`. -/
theorem malformed_line_skipped_witness :
    (processLines ["тел".data]).kept = [] ∧
    ∃ msg, (processLines ["тел".data]).warnings = [msg] ∧
      msg.lineOf = strip ("тел".data) := by
  have h := malformed_line_skipped ("тел".data) [] (by decide) (Or.inl (by decide))
  simpa [processLines] using h

end BashkirStress
